import Mathlib

/-!
Verification development for the 13D/13G daily-report script (`src/13G.py`).

Text is modelled as `List Char` (a Python `str` is a sequence of code
points).  Machinery that performs I/O (HTTP, Telegram) is modelled by
passing the network's answer as an explicit argument; everything else is a
direct shallow embedding of the Python functions.
-/

namespace ThirteenG

/-! ### Message chunker (`chunk_text`, 13G.py lines 41-62) -/

/-- Python `remaining.rfind("\n", 0, bound)`: the largest index `i < bound`
with `s[i] = '\n'`, if any (`none` models the `-1` return). -/
def rfindNewline (s : List Char) (bound : Nat) : Option Nat :=
  (List.range bound).foldl (fun acc i => if s.get? i = some '\n' then some i else acc) none

/-- Python `s.lstrip("\n")`. -/
def lstripNewlines (s : List Char) : List Char :=
  s.dropWhile (fun c => c = '\n')

/-- The `while remaining:` loop of `chunk_text`, with an explicit fuel bound
so that possible divergence (the loop need not terminate for `max_len = 0`)
is represented by `none`.  `acc` is the `chunks` accumulator. -/
def chunkTextGo (maxLen : Nat) : Nat → List Char → List (List Char) → Option (List (List Char))
  | 0, remaining, acc => if remaining.isEmpty then some acc else none
  | fuel + 1, remaining, acc =>
    if remaining.isEmpty then some acc
    else if remaining.length ≤ maxLen then some (acc ++ [remaining])
    else
      let sp := (rfindNewline remaining maxLen).getD maxLen
      chunkTextGo maxLen fuel (lstripNewlines (remaining.drop sp)) (acc ++ [remaining.take sp])

/-- `chunk_text(text, max_len)`.  Fuel `text.length + 1` is enough whenever
`max_len ≥ 1` (proved below), so for those arguments this equals the Python
function's result. -/
def chunk_text (text : List Char) (maxLen : Nat) : List (List Char) :=
  (chunkTextGo maxLen (text.length + 1) text []).getD []

/-! #### Basic facts about `rfindNewline` -/

theorem rfindNewline_zero (s : List Char) : rfindNewline s 0 = none := rfl

theorem rfindNewline_succ (s : List Char) (b : Nat) :
    rfindNewline s (b + 1) =
      if s.get? b = some '\n' then some b else rfindNewline s b := by
  unfold rfindNewline
  rw [List.range_succ, List.foldl_append]
  simp

theorem rfindNewline_spec {s : List Char} {b i : Nat}
    (h : rfindNewline s b = some i) : i < b ∧ s.get? i = some '\n' := by
  induction b with
  | zero => simp [rfindNewline_zero] at h
  | succ b ih =>
    rw [rfindNewline_succ] at h
    by_cases hb : s.get? b = some '\n'
    · rw [if_pos hb] at h
      obtain rfl : b = i := by injection h
      exact ⟨Nat.lt_succ_self b, hb⟩
    · rw [if_neg hb] at h
      obtain ⟨h1, h2⟩ := ih h
      exact ⟨Nat.lt_succ_of_lt h1, h2⟩

theorem rfindNewline_eq_zero {s : List Char} {b : Nat}
    (hb : 1 ≤ b) (h0 : s.get? 0 = some '\n')
    (hrest : ∀ j, 1 ≤ j → j < b → s.get? j ≠ some '\n') :
    rfindNewline s b = some 0 := by
  induction b with
  | zero => omega
  | succ b ih =>
    rw [rfindNewline_succ]
    rcases Nat.eq_zero_or_pos b with rfl | hbpos
    · rw [if_pos h0]
    · rw [if_neg (hrest b hbpos (Nat.lt_succ_self b))]
      exact ih hbpos (fun j h1 h2 => hrest j h1 (Nat.lt_succ_of_lt h2))

/-- The split position chosen each iteration never exceeds `maxLen`. -/
theorem splitPos_le_maxLen (remaining : List Char) (maxLen : Nat) :
    (rfindNewline remaining maxLen).getD maxLen ≤ maxLen := by
  cases h : rfindNewline remaining maxLen with
  | none => simp
  | some i => simpa using Nat.le_of_lt (rfindNewline_spec h).1

/-- Each loop iteration strictly shortens `remaining` when `maxLen ≥ 1`. -/
theorem chunk_step_decreases {remaining : List Char} {maxLen : Nat}
    (hml : 1 ≤ maxLen) (hlong : maxLen < remaining.length) :
    (lstripNewlines (remaining.drop ((rfindNewline remaining maxLen).getD maxLen))).length
      < remaining.length := by
  have hdw : ∀ t : List Char, (lstripNewlines t).length ≤ t.length := by
    intro t
    exact List.Sublist.length_le (List.dropWhile_sublist _)
  cases h : rfindNewline remaining maxLen with
  | none =>
    have : (remaining.drop maxLen).length < remaining.length := by
      rw [List.length_drop]
      omega
    simpa using Nat.lt_of_le_of_lt (hdw _) this
  | some i =>
    obtain ⟨hib, hnl⟩ := rfindNewline_spec h
    rcases Nat.eq_zero_or_pos i with rfl | hipos
    · -- the newline is at index 0: `drop 0 = remaining` but the lstrip bites
      simp only [Option.getD_some, List.drop_zero]
      cases remaining with
      | nil => simp at hlong
      | cons c cs =>
        have hc : c = '\n' := by
          simpa [List.get?] using hnl
        subst hc
        have : lstripNewlines ('\n' :: cs) = lstripNewlines cs := by
          simp [lstripNewlines, List.dropWhile]
        rw [this]
        exact Nat.lt_succ_of_le (hdw cs)
    · have : (remaining.drop i).length < remaining.length := by
        rw [List.length_drop]
        omega
      simpa using Nat.lt_of_le_of_lt (hdw _) this

/-- With `maxLen ≥ 1`, fuel `remaining.length` suffices for the loop. -/
theorem chunkTextGo_isSome {maxLen : Nat} (hml : 1 ≤ maxLen) :
    ∀ fuel remaining acc, remaining.length ≤ fuel →
      (chunkTextGo maxLen fuel remaining acc).isSome := by
  intro fuel
  induction fuel with
  | zero =>
    intro remaining acc h
    have : remaining = [] := List.eq_nil_of_length_eq_zero (Nat.le_zero.mp h)
    subst this
    simp [chunkTextGo]
  | succ fuel ih =>
    intro remaining acc h
    by_cases hemp : remaining.isEmpty
    · simp [chunkTextGo, hemp]
    · by_cases hlen : remaining.length ≤ maxLen
      · simp [chunkTextGo, hemp, hlen]
      · have hlong : maxLen < remaining.length := Nat.lt_of_not_le hlen
        have hdec := chunk_step_decreases hml hlong
        simp only [chunkTextGo, hemp, hlen, if_false, Bool.false_eq_true]
        exact ih _ _ (by omega)

/-- The loop only ever appends to the accumulator. -/
theorem chunkTextGo_acc_prefix {maxLen : Nat} :
    ∀ fuel remaining acc chunks,
      chunkTextGo maxLen fuel remaining acc = some chunks →
      ∃ tail, chunks = acc ++ tail := by
  intro fuel
  induction fuel with
  | zero =>
    intro remaining acc chunks h
    simp only [chunkTextGo] at h
    by_cases hemp : remaining.isEmpty
    · rw [if_pos hemp] at h
      exact ⟨[], by simpa [eq_comm] using congrArg (Option.getD · []) h⟩
    · rw [if_neg hemp] at h
      cases h
  | succ fuel ih =>
    intro remaining acc chunks h
    simp only [chunkTextGo] at h
    by_cases hemp : remaining.isEmpty
    · rw [if_pos hemp] at h
      exact ⟨[], by simpa [eq_comm] using congrArg (Option.getD · []) h⟩
    · rw [if_neg hemp] at h
      by_cases hlen : remaining.length ≤ maxLen
      · rw [if_pos hlen] at h
        refine ⟨[remaining], ?_⟩
        simpa [eq_comm] using congrArg (Option.getD · []) h
      · rw [if_neg hlen] at h
        obtain ⟨tail, htail⟩ := ih _ _ _ h
        exact ⟨remaining.take ((rfindNewline remaining maxLen).getD maxLen) :: tail, by
          simpa using htail⟩

/-- Every chunk the loop produces (beyond the accumulator) has length at most
`maxLen`. -/
theorem chunkTextGo_length_le {maxLen : Nat} :
    ∀ fuel remaining acc chunks,
      chunkTextGo maxLen fuel remaining acc = some chunks →
      (∀ c ∈ acc, c.length ≤ maxLen) →
      ∀ c ∈ chunks, c.length ≤ maxLen := by
  intro fuel
  induction fuel with
  | zero =>
    intro remaining acc chunks h hacc
    simp only [chunkTextGo] at h
    by_cases hemp : remaining.isEmpty
    · rw [if_pos hemp] at h
      obtain rfl : acc = chunks := by injection h
      exact hacc
    · rw [if_neg hemp] at h
      cases h
  | succ fuel ih =>
    intro remaining acc chunks h hacc
    simp only [chunkTextGo] at h
    by_cases hemp : remaining.isEmpty
    · rw [if_pos hemp] at h
      obtain rfl : acc = chunks := by injection h
      exact hacc
    · rw [if_neg hemp] at h
      by_cases hlen : remaining.length ≤ maxLen
      · rw [if_pos hlen] at h
        obtain rfl : acc ++ [remaining] = chunks := by injection h
        intro c hc
        rcases List.mem_append.mp hc with hc | hc
        · exact hacc c hc
        · rw [List.mem_singleton.mp hc]
          exact hlen
      · rw [if_neg hlen] at h
        refine ih _ _ _ h ?_
        intro c hc
        rcases List.mem_append.mp hc with hc | hc
        · exact hacc c hc
        · rw [List.mem_singleton.mp hc]
          calc (remaining.take ((rfindNewline remaining maxLen).getD maxLen)).length
              ≤ (rfindNewline remaining maxLen).getD maxLen := by
                simp [List.length_take]
            _ ≤ maxLen := splitPos_le_maxLen remaining maxLen

/-- Zip-join of chunks with one separator after each chunk. -/
def joinChunksSeps : List (List Char) → List (List Char) → List Char
  | c :: cs, s :: ss => c ++ s ++ joinChunksSeps cs ss
  | _, _ => []

/-- Join of chunks with separators placed only between consecutive chunks
(the shape asserted by the reconstruction claim). -/
def joinBetween : List (List Char) → List (List Char) → List Char
  | [], _ => []
  | [c], _ => c
  | c :: cs, s :: ss => c ++ s ++ joinBetween cs ss
  | c :: cs, [] => c ++ joinBetween cs []

/-- Reconstruction: the input is each produced chunk followed by the run of
newlines stripped after it (the last separator absorbs a newline-only tail). -/
theorem chunkTextGo_reconstruct {maxLen : Nat} :
    ∀ fuel remaining acc chunks,
      chunkTextGo maxLen fuel remaining acc = some chunks →
      ∃ tail seps, chunks = acc ++ tail ∧ seps.length = tail.length ∧
        (∀ s ∈ seps, ∀ c ∈ s, c = '\n') ∧
        joinChunksSeps tail seps = remaining := by
  intro fuel
  induction fuel with
  | zero =>
    intro remaining acc chunks h
    simp only [chunkTextGo] at h
    by_cases hemp : remaining.isEmpty
    · rw [if_pos hemp] at h
      obtain rfl : acc = chunks := by injection h
      exact ⟨[], [], by simp, rfl, by simp, by
        simp [joinChunksSeps, List.isEmpty_iff.mp hemp]⟩
    · rw [if_neg hemp] at h
      cases h
  | succ fuel ih =>
    intro remaining acc chunks h
    simp only [chunkTextGo] at h
    by_cases hemp : remaining.isEmpty
    · rw [if_pos hemp] at h
      obtain rfl : acc = chunks := by injection h
      exact ⟨[], [], by simp, rfl, by simp, by
        simp [joinChunksSeps, List.isEmpty_iff.mp hemp]⟩
    · rw [if_neg hemp] at h
      by_cases hlen : remaining.length ≤ maxLen
      · rw [if_pos hlen] at h
        obtain rfl : acc ++ [remaining] = chunks := by injection h
        exact ⟨[remaining], [[]], by simp, rfl, by simp, by simp [joinChunksSeps]⟩
      · rw [if_neg hlen] at h
        obtain ⟨tail, seps, hchunks, hlens, hnl, hjoin⟩ := ih _ _ _ h
        refine ⟨remaining.take ((rfindNewline remaining maxLen).getD maxLen) :: tail,
          ((remaining.drop ((rfindNewline remaining maxLen).getD maxLen)).takeWhile
            (fun c => c = '\n')) :: seps, by simpa using hchunks, by simpa using hlens,
          ?_, ?_⟩
        · intro s hs
          rcases List.mem_cons.mp hs with rfl | hs
          · intro c hc
            have := List.mem_takeWhile_imp hc
            simpa using this
          · exact hnl s hs
        · show remaining.take _ ++ _ ++ joinChunksSeps tail seps = remaining
          rw [hjoin]
          show remaining.take _ ++ _ ++ lstripNewlines (remaining.drop _) = remaining
          unfold lstripNewlines
          rw [List.append_assoc, List.takeWhile_append_dropWhile, List.take_append_drop]

/-- With positive `maxLen` the default fuel is enough, so `chunk_text` is the
loop's actual result. -/
theorem chunk_text_eq_go (text : List Char) {maxLen : Nat} (hml : 1 ≤ maxLen) :
    chunkTextGo maxLen (text.length + 1) text [] = some (chunk_text text maxLen) := by
  have h := chunkTextGo_isSome hml (text.length + 1) text [] (Nat.le_succ _)
  obtain ⟨chunks, hch⟩ := Option.isSome_iff_exists.mp h
  rw [hch]
  unfold chunk_text
  rw [hch]
  rfl

/-- C3: every chunk emitted by `chunk_text` has length at most `max_length`,
for every input text and every `max_length > 0`. -/
theorem chunk_length_le_max (text : List Char) (maxLen : Nat) (hml : 0 < maxLen) :
    ∀ c ∈ chunk_text text maxLen, c.length ≤ maxLen := by
  have hgo := chunk_text_eq_go text hml
  exact chunkTextGo_length_le _ _ _ _ hgo (by simp)

theorem chunk_length_le_max_witness :
    (('a' :: 'b' :: []) : List Char).length ≤ 3 :=
  chunk_length_le_max ('a' :: 'b' :: '\n' :: 'c' :: 'd' :: 'e' :: []) 3 (by decide)
    ('a' :: 'b' :: []) (by decide)

/-- C4 (counterexample): for `text = "a\n"` and `max_length = 1` the chunker
returns the single chunk `"a"`, and no choice of newline-only separators
placed between consecutive chunks reconstructs the original text (its
newline-only tail is dropped). -/
theorem chunk_concat_counterexample :
    chunk_text ('a' :: '\n' :: []) 1 = [('a' :: [])] ∧
    ¬ ∃ seps : List (List Char),
        seps.length + 1 = (chunk_text ('a' :: '\n' :: []) 1).length ∧
        (∀ s ∈ seps, ∀ c ∈ s, c = '\n') ∧
        joinBetween (chunk_text ('a' :: '\n' :: []) 1) seps = ('a' :: '\n' :: []) := by
  have hch : chunk_text ('a' :: '\n' :: []) 1 = [('a' :: [])] := by decide
  refine ⟨hch, ?_⟩
  rintro ⟨seps, hlen, -, hjoin⟩
  rw [hch] at hlen hjoin
  simp only [List.length_singleton] at hlen
  have hsep : seps = [] := List.eq_nil_of_length_eq_zero (by omega)
  subst hsep
  simp [joinBetween] at hjoin

/-- C4 (amended): for every text and `max_length > 0` there are newline-only
separator strings, one after each chunk (the final one possibly a newline-only
tail of the text), whose interleaving with the chunks rebuilds the text. -/
theorem chunk_concat_reconstructs (text : List Char) (maxLen : Nat) (hml : 0 < maxLen) :
    ∃ seps : List (List Char),
      seps.length = (chunk_text text maxLen).length ∧
      (∀ s ∈ seps, ∀ c ∈ s, c = '\n') ∧
      joinChunksSeps (chunk_text text maxLen) seps = text := by
  have hgo := chunk_text_eq_go text hml
  obtain ⟨tail, seps, hchunks, hlens, hnl, hjoin⟩ := chunkTextGo_reconstruct _ _ _ _ hgo
  simp only [List.nil_append] at hchunks
  subst hchunks
  exact ⟨seps, hlens.symm ▸ rfl, hnl, hjoin⟩

theorem chunk_concat_reconstructs_witness :
    ∃ seps : List (List Char),
      seps.length = (chunk_text ('a' :: 'b' :: '\n' :: 'c' :: []) 2).length ∧
      (∀ s ∈ seps, ∀ c ∈ s, c = '\n') ∧
      joinChunksSeps (chunk_text ('a' :: 'b' :: '\n' :: 'c' :: []) 2) seps =
        ('a' :: 'b' :: '\n' :: 'c' :: []) :=
  chunk_concat_reconstructs ('a' :: 'b' :: '\n' :: 'c' :: []) 2 (by decide)

/-- C5 (counterexample): the empty string has length `0 ≤ max_length`, yet the
chunker returns zero chunks rather than one chunk equal to the input. -/
theorem chunk_empty_input_counterexample :
    (([] : List Char)).length ≤ 1 ∧
    chunk_text ([] : List Char) 1 = [] ∧
    chunk_text ([] : List Char) 1 ≠ [([] : List Char)] := by
  decide

/-- C5 (amended): for every nonempty text whose length is at most
`max_length` (with `max_length > 0`), the chunker returns exactly one chunk
equal to the input, and re-chunking any returned chunk again yields that
single chunk. -/
theorem chunk_short_input_single_chunk (text : List Char) (maxLen : Nat)
    (hml : 0 < maxLen) (hne : text ≠ []) (hlen : text.length ≤ maxLen) :
    chunk_text text maxLen = [text] ∧
    ∀ c ∈ chunk_text text maxLen, chunk_text c maxLen = [c] := by
  have hmain : chunk_text text maxLen = [text] := by
    unfold chunk_text
    simp only [chunkTextGo]
    rw [if_neg (by simpa [List.isEmpty_iff] using hne), if_pos hlen]
    rfl
  refine ⟨hmain, ?_⟩
  intro c hc
  rw [hmain, List.mem_singleton] at hc
  subst hc
  exact hmain

theorem chunk_short_input_single_chunk_witness :
    chunk_text ('h' :: 'i' :: []) 4 = [('h' :: 'i' :: [])] ∧
    ∀ c ∈ chunk_text ('h' :: 'i' :: []) 4, chunk_text c 4 = [c] :=
  chunk_short_input_single_chunk ('h' :: 'i' :: []) 4 (by decide) (by decide) (by decide)

/-- C9: when the text is longer than `max_length` and the only newline
strictly before index `max_length` sits at index 0, the first emitted chunk
is the empty string. -/
theorem first_chunk_empty_when_leading_newline (text : List Char) (maxLen : Nat)
    (hml : 1 ≤ maxLen) (hlong : maxLen < text.length)
    (h0 : text.get? 0 = some '\n')
    (hrest : ∀ j, 1 ≤ j → j < maxLen → text.get? j ≠ some '\n') :
    (chunk_text text maxLen).head? = some [] := by
  have hsp : (rfindNewline text maxLen).getD maxLen = 0 := by
    rw [rfindNewline_eq_zero hml h0 hrest]
    rfl
  have hemp : ¬ text.isEmpty := by
    rw [List.isEmpty_iff]
    intro h
    subst h
    simp at hlong
  have hlen : ¬ text.length ≤ maxLen := Nat.not_le.mpr hlong
  have hstep : chunkTextGo maxLen (text.length + 1) text [] =
      chunkTextGo maxLen text.length (lstripNewlines (text.drop 0)) [[]] := by
    simp only [chunkTextGo]
    rw [if_neg hemp, if_neg hlen, hsp]
    simp
  have hgo := chunk_text_eq_go text hml
  rw [hstep] at hgo
  obtain ⟨tail, htail⟩ := chunkTextGo_acc_prefix _ _ _ _ hgo
  rw [htail]
  rfl

theorem first_chunk_empty_when_leading_newline_witness :
    (chunk_text ('\n' :: 'x' :: 'y' :: 'z' :: []) 2).head? = some [] :=
  first_chunk_empty_when_leading_newline ('\n' :: 'x' :: 'y' :: 'z' :: []) 2
    (by decide) (by decide) (by decide) (by decide)

/-- C10: for `max_length ≥ 1` the loop terminates within `text.length + 1`
iterations on every input (so `chunk_text` computes the Python loop's
result), while for `max_length = 0` the loop runs forever on the text
`"a"`: no amount of fuel makes it finish. -/
theorem chunk_loop_termination :
    (∀ (text : List Char) (maxLen : Nat) (acc : List (List Char)), 1 ≤ maxLen →
        (chunkTextGo maxLen (text.length + 1) text acc).isSome) ∧
    (∀ fuel acc, chunkTextGo 0 fuel ('a' :: []) acc = none) := by
  constructor
  · intro text maxLen acc hml
    exact chunkTextGo_isSome hml _ _ _ (Nat.le_succ _)
  · intro fuel
    induction fuel with
    | zero => intro acc; rfl
    | succ fuel ih =>
      intro acc
      have hstep : chunkTextGo 0 (fuel + 1) ('a' :: []) acc =
          chunkTextGo 0 fuel ('a' :: []) (acc ++ [[]]) := by
        simp only [chunkTextGo]
        rfl
      rw [hstep]
      exact ih _

theorem chunk_loop_termination_witness :
    (chunkTextGo 3 (('h' :: 'i' :: []).length + 1) ('h' :: 'i' :: []) []).isSome ∧
    chunkTextGo 0 5 ('a' :: []) [] = none :=
  ⟨chunk_loop_termination.1 ('h' :: 'i' :: []) 3 [] (by decide),
   chunk_loop_termination.2 5 []⟩

/-! ### Filing extraction (`fetch_13dg_filings_for_cik`, 13G.py lines 115-201)

The HTTP call is modelled by passing the decoded `filings` list (or the
raised error) as an argument; the per-record normalization loop (lines
159-198) is embedded directly. -/

/-- A calendar date, as produced by `datetime.strptime(s, "%Y-%m-%d").date()`. -/
structure Date where
  year : Nat
  month : Nat
  day : Nat
deriving DecidableEq

/-- Python `date` comparison: lexicographic on (year, month, day). -/
def Date.lt (a b : Date) : Prop :=
  a.year < b.year ∨ (a.year = b.year ∧
    (a.month < b.month ∨ (a.month = b.month ∧ a.day < b.day)))

instance (a b : Date) : Decidable (Date.lt a b) := by
  unfold Date.lt
  infer_instance

def Date.le (a b : Date) : Prop :=
  Date.lt a b ∨ a = b

instance (a b : Date) : Decidable (Date.le a b) := by
  unfold Date.le
  infer_instance

theorem Date.le_of_not_lt {a b : Date} (h : ¬ Date.lt a b) : Date.le b a := by
  cases a with
  | mk ay am ad =>
    cases b with
    | mk by' bm bd =>
      simp only [Date.lt, Date.le, Date.mk.injEq, not_or, not_and, not_lt] at *
      omega

def isLeapYear (y : Nat) : Bool :=
  y % 4 = 0 && (y % 100 ≠ 0 || y % 400 = 0)

def daysInMonth (y m : Nat) : Nat :=
  if m = 2 then (if isLeapYear y then 29 else 28)
  else if m = 4 ∨ m = 6 ∨ m = 9 ∨ m = 11 then 30
  else 31

/-- The numeric value of a nonempty all-digit string, `none` otherwise. -/
def digitsToNat (s : List Char) : Option Nat :=
  if s ≠ [] ∧ s.all Char.isDigit then
    some (s.foldl (fun a c => a * 10 + (c.toNat - 48)) 0)
  else none

/-- `datetime.strptime(s, "%Y-%m-%d").date()` as a total function: `%Y` is
exactly four digits, `%m` and `%d` are one or two digits in range, and the
`date` constructor validates the day against the month length and requires
`year ≥ 1`; any failure is `none` (the Python code catches the exception and
skips the record). -/
def parseDate (s : List Char) : Option Date :=
  match s.splitOn '-' with
  | [ys, ms, ds] =>
    match digitsToNat ys, digitsToNat ms, digitsToNat ds with
    | some y, some m, some d =>
      if ys.length = 4 ∧ 1 ≤ y ∧
          (ms.length = 1 ∨ ms.length = 2) ∧ 1 ≤ m ∧ m ≤ 12 ∧
          (ds.length = 1 ∨ ds.length = 2) ∧ 1 ≤ d ∧ d ≤ daysInMonth y m then
        some ⟨y, m, d⟩
      else none
    | _, _, _ => none
  | _ => none

/-- One element of the decoded `filings` array.  `owners` keeps, per owner
entry, the `amountAsPercent` value when it is numeric (`int` or `float`,
embedded in `ℚ`) and `none` when the key is absent or non-numeric. -/
structure RawFiling where
  formType : List Char
  filedAt : Option (List Char)
  nameOfIssuer : List Char
  owners : List (Option ℚ)
deriving DecidableEq

/-- One element of the `results` list (lines 193-198). -/
structure NormalizedFiling where
  form : List Char
  filed_at_date : List Char
  issuer : List Char
  percent_owned : Option ℚ
deriving DecidableEq

/-- Python `max(l)` on a nonempty list, `none` on the empty one
(`max(percents) if percents else None`). -/
def listMax : List ℚ → Option ℚ
  | [] => none
  | x :: xs => some (xs.foldl max x)

/-- Lines 185-191: collect the numeric `amountAsPercent` values and take
their maximum as the headline percentage. -/
def percentOwned (owners : List (Option ℚ)) : Option ℚ :=
  listMax (owners.filterMap id)

/-- The `for f in filings:` loop of lines 159-198. -/
def extractGo (cutoff : Date) (maxFilings : Nat) :
    List RawFiling → List NormalizedFiling → List NormalizedFiling
  | [], results => results
  | f :: fs, results =>
    if maxFilings ≤ results.length then results
    else
      match f.filedAt with
      | none => extractGo cutoff maxFilings fs results
      | some filedAtRaw =>
        if filedAtRaw = [] then extractGo cutoff maxFilings fs results
        else
          let filedDateStr := filedAtRaw.takeWhile (fun c => c ≠ 'T')
          match parseDate filedDateStr with
          | none => extractGo cutoff maxFilings fs results
          | some filedDate =>
            if Date.lt filedDate cutoff then extractGo cutoff maxFilings fs results
            else
              extractGo cutoff maxFilings fs (results ++
                [{ form := f.formType, filed_at_date := filedDateStr,
                   issuer := f.nameOfIssuer,
                   percent_owned := percentOwned f.owners }])

/-- The normalization part of `fetch_13dg_filings_for_cik`: applied to the
decoded `filings` array it yields the returned `results` list. -/
def extract (filings : List RawFiling) (cutoff : Date) (maxFilings : Nat) :
    List NormalizedFiling :=
  extractGo cutoff maxFilings filings []

/-! #### Facts about `listMax` and `percentOwned` -/

theorem foldl_max_le (xs : List ℚ) : ∀ x : ℚ,
    x ≤ xs.foldl max x ∧ ∀ p ∈ xs, p ≤ xs.foldl max x := by
  induction xs with
  | nil => intro x; exact ⟨le_refl x, by simp⟩
  | cons y ys ih =>
    intro x
    have h := ih (max x y)
    constructor
    · exact le_trans (le_max_left x y) h.1
    · intro p hp
      rcases List.mem_cons.mp hp with rfl | hp
      · exact le_trans (le_max_right x p) h.1
      · exact h.2 p hp

theorem foldl_max_mem (xs : List ℚ) : ∀ x : ℚ,
    xs.foldl max x = x ∨ xs.foldl max x ∈ xs := by
  induction xs with
  | nil => intro x; exact Or.inl rfl
  | cons y ys ih =>
    intro x
    rcases ih (max x y) with h | h
    · rcases max_choice x y with hm | hm
      · exact Or.inl (by rw [List.foldl_cons, h, hm])
      · exact Or.inr (by rw [List.foldl_cons, h, hm]; exact List.mem_cons_self y ys)
    · exact Or.inr (List.mem_cons_of_mem y h)

theorem listMax_eq_none_iff (l : List ℚ) : listMax l = none ↔ l = [] := by
  cases l <;> simp [listMax]

theorem listMax_spec {l : List ℚ} {q : ℚ} (h : listMax l = some q) :
    q ∈ l ∧ ∀ p ∈ l, p ≤ q := by
  cases l with
  | nil => cases h
  | cons x xs =>
    obtain rfl : xs.foldl max x = q := by injection h
    constructor
    · rcases foldl_max_mem xs x with h | h
      · rw [h]; exact List.mem_cons_self x xs
      · exact List.mem_cons_of_mem x h
    · intro p hp
      rcases List.mem_cons.mp hp with rfl | hp
      · exact (foldl_max_le xs p).1
      · exact (foldl_max_le xs x).2 p hp

/-! #### Invariants of the extraction loop -/

theorem extractGo_length_le (cutoff : Date) (maxF : Nat) :
    ∀ (raws : List RawFiling) (results : List NormalizedFiling),
      results.length ≤ maxF → (extractGo cutoff maxF raws results).length ≤ maxF := by
  intro raws
  induction raws with
  | nil => intro results h; exact h
  | cons f fs ih =>
    intro results h
    by_cases hfull : maxF ≤ results.length
    · simp only [extractGo, if_pos hfull]; exact h
    · cases hfa : f.filedAt with
      | none => simp only [extractGo, if_neg hfull, hfa]; exact ih results h
      | some filedAtRaw =>
        by_cases hempty : filedAtRaw = []
        · simp only [extractGo, if_neg hfull, hfa, if_pos hempty]; exact ih results h
        · cases hpd : parseDate (filedAtRaw.takeWhile (fun c => c ≠ 'T')) with
          | none =>
            simp only [extractGo, if_neg hfull, hfa, if_neg hempty, hpd]
            exact ih results h
          | some filedDate =>
            by_cases hold : Date.lt filedDate cutoff
            · simp only [extractGo, if_neg hfull, hfa, if_neg hempty, hpd, if_pos hold]
              exact ih results h
            · simp only [extractGo, if_neg hfull, hfa, if_neg hempty, hpd, if_neg hold]
              exact ih _ (by simp; omega)

theorem extractGo_preserves (cutoff : Date) (maxF : Nat)
    (P : NormalizedFiling → Prop)
    (hnew : ∀ (f : RawFiling) (filedAtRaw : List Char) (filedDate : Date),
      f.filedAt = some filedAtRaw →
      parseDate (filedAtRaw.takeWhile (fun c => c ≠ 'T')) = some filedDate →
      ¬ Date.lt filedDate cutoff →
      P { form := f.formType,
          filed_at_date := filedAtRaw.takeWhile (fun c => c ≠ 'T'),
          issuer := f.nameOfIssuer,
          percent_owned := percentOwned f.owners }) :
    ∀ (raws : List RawFiling) (results : List NormalizedFiling),
      (∀ nf ∈ results, P nf) →
      ∀ nf ∈ extractGo cutoff maxF raws results, P nf := by
  intro raws
  induction raws with
  | nil => intro results h; exact h
  | cons f fs ih =>
    intro results h
    by_cases hfull : maxF ≤ results.length
    · simp only [extractGo, if_pos hfull]; exact h
    · cases hfa : f.filedAt with
      | none => simp only [extractGo, if_neg hfull, hfa]; exact ih results h
      | some filedAtRaw =>
        by_cases hempty : filedAtRaw = []
        · simp only [extractGo, if_neg hfull, hfa, if_pos hempty]; exact ih results h
        · cases hpd : parseDate (filedAtRaw.takeWhile (fun c => c ≠ 'T')) with
          | none =>
            simp only [extractGo, if_neg hfull, hfa, if_neg hempty, hpd]
            exact ih results h
          | some filedDate =>
            by_cases hold : Date.lt filedDate cutoff
            · simp only [extractGo, if_neg hfull, hfa, if_neg hempty, hpd, if_pos hold]
              exact ih results h
            · simp only [extractGo, if_neg hfull, hfa, if_neg hempty, hpd, if_neg hold]
              refine ih _ ?_
              intro nf hnf
              rcases List.mem_append.mp hnf with hnf | hnf
              · exact h nf hnf
              · rw [List.mem_singleton.mp hnf]
                exact hnew f filedAtRaw filedDate hfa hpd hold

/-- C1: every normalized filing the extractor produces carries a date string
that parses to a date on or after the cutoff, and the output has at most
`max_count` entries, for every raw record list, cutoff and `max_count ≥ 0`. -/
theorem extract_respects_cutoff_and_max
    (raws : List RawFiling) (cutoff : Date) (maxCount : Nat) :
    (extract raws cutoff maxCount).length ≤ maxCount ∧
    ∀ nf ∈ extract raws cutoff maxCount,
      ∃ dt : Date, parseDate nf.filed_at_date = some dt ∧ Date.le cutoff dt := by
  constructor
  · exact extractGo_length_le cutoff maxCount raws [] (Nat.zero_le _)
  · refine extractGo_preserves cutoff maxCount _ ?_ raws [] (by simp)
    intro f filedAtRaw filedDate hfa hpd hold
    exact ⟨filedDate, hpd, Date.le_of_not_lt hold⟩

theorem extract_respects_cutoff_and_max_witness :
    (extract
      [{ formType := "SC 13G".toList,
         filedAt := some "2025-06-01T12:00:00-04:00".toList,
         nameOfIssuer := "ACME Corp".toList,
         owners := [some (7 : ℚ), none, some (5 : ℚ)] }]
      ⟨2025, 1, 1⟩ 5).length ≤ 5 ∧
    ∃ dt : Date, parseDate "2025-06-01".toList = some dt ∧ Date.le ⟨2025, 1, 1⟩ dt :=
  ⟨(extract_respects_cutoff_and_max
      [{ formType := "SC 13G".toList,
         filedAt := some "2025-06-01T12:00:00-04:00".toList,
         nameOfIssuer := "ACME Corp".toList,
         owners := [some (7 : ℚ), none, some (5 : ℚ)] }]
      ⟨2025, 1, 1⟩ 5).1,
   (extract_respects_cutoff_and_max
      [{ formType := "SC 13G".toList,
         filedAt := some "2025-06-01T12:00:00-04:00".toList,
         nameOfIssuer := "ACME Corp".toList,
         owners := [some (7 : ℚ), none, some (5 : ℚ)] }]
      ⟨2025, 1, 1⟩ 5).2
     { form := "SC 13G".toList, filed_at_date := "2025-06-01".toList,
       issuer := "ACME Corp".toList, percent_owned := some (7 : ℚ) }
     (by decide)⟩

/-- Every filing in the loop's output either was already in the accumulator
or takes its `percent_owned` from one of the raw records. -/
theorem extractGo_provenance (cutoff : Date) (maxF : Nat) :
    ∀ (raws : List RawFiling) (results : List NormalizedFiling)
      (nf : NormalizedFiling), nf ∈ extractGo cutoff maxF raws results →
      nf ∈ results ∨ ∃ raw ∈ raws, nf.percent_owned = percentOwned raw.owners := by
  intro raws
  induction raws with
  | nil => intro results nf h; exact Or.inl h
  | cons f fs ih =>
    intro results nf h
    have lift : nf ∈ results ∨ (∃ raw ∈ fs, nf.percent_owned = percentOwned raw.owners) →
        nf ∈ results ∨ ∃ raw ∈ f :: fs, nf.percent_owned = percentOwned raw.owners := by
      rintro (h | ⟨raw, hin, hp⟩)
      · exact Or.inl h
      · exact Or.inr ⟨raw, List.mem_cons_of_mem f hin, hp⟩
    by_cases hfull : maxF ≤ results.length
    · simp only [extractGo, if_pos hfull] at h
      exact Or.inl h
    · cases hfa : f.filedAt with
      | none =>
        simp only [extractGo, if_neg hfull, hfa] at h
        exact lift (ih results nf h)
      | some filedAtRaw =>
        by_cases hempty : filedAtRaw = []
        · simp only [extractGo, if_neg hfull, hfa, if_pos hempty] at h
          exact lift (ih results nf h)
        · cases hpd : parseDate (filedAtRaw.takeWhile (fun c => c ≠ 'T')) with
          | none =>
            simp only [extractGo, if_neg hfull, hfa, if_neg hempty, hpd] at h
            exact lift (ih results nf h)
          | some filedDate =>
            by_cases hold : Date.lt filedDate cutoff
            · simp only [extractGo, if_neg hfull, hfa, if_neg hempty, hpd, if_pos hold] at h
              exact lift (ih results nf h)
            · simp only [extractGo, if_neg hfull, hfa, if_neg hempty, hpd, if_neg hold] at h
              rcases ih _ nf h with hmem | hright
              · rcases List.mem_append.mp hmem with hmem | hmem
                · exact Or.inl hmem
                · refine Or.inr ⟨f, List.mem_cons_self f fs, ?_⟩
                  rw [List.mem_singleton.mp hmem]
              · exact lift (Or.inr hright)

/-- C2: for every normalized filing the extractor produces, `percent_owned`
comes from one of the raw records as the maximum of its numeric owner
percentages; it is `none` exactly when no owner entry carries a numeric
value. -/
theorem percent_owned_max_of_owner_percents :
    (∀ owners : List (Option ℚ),
      (percentOwned owners = none ↔ ∀ o ∈ owners, o = none) ∧
      ∀ q : ℚ, percentOwned owners = some q →
        some q ∈ owners ∧ ∀ p : ℚ, some p ∈ owners → p ≤ q) ∧
    ∀ (raws : List RawFiling) (cutoff : Date) (maxCount : Nat),
      ∀ nf ∈ extract raws cutoff maxCount,
        ∃ raw ∈ raws, nf.percent_owned = percentOwned raw.owners := by
  constructor
  · intro owners
    constructor
    · rw [percentOwned, listMax_eq_none_iff, List.filterMap_eq_nil_iff]
      simp
    · intro q hq
      obtain ⟨hmem, hub⟩ := listMax_spec hq
      constructor
      · obtain ⟨o, ho, hoq⟩ := List.mem_filterMap.mp hmem
        rw [show o = some q from hoq] at ho
        exact ho
      · intro p hp
        exact hub p (List.mem_filterMap.mpr ⟨some p, hp, rfl⟩)
  · intro raws cutoff maxCount nf hnf
    rcases extractGo_provenance cutoff maxCount raws [] nf hnf with h | h
    · cases h
    · exact h

theorem percent_owned_max_of_owner_percents_witness :
    (some (7 : ℚ) ∈ [some (3 : ℚ), none, some (7 : ℚ)] ∧
      ∀ p : ℚ, some p ∈ [some (3 : ℚ), none, some (7 : ℚ)] → p ≤ 7) ∧
    ∃ raw ∈ [({ formType := "SC 13G".toList,
                filedAt := some "2025-06-01T12:00:00-04:00".toList,
                nameOfIssuer := "ACME Corp".toList,
                owners := [some (3 : ℚ), none, some (7 : ℚ)] } : RawFiling)],
      ({ form := "SC 13G".toList, filed_at_date := "2025-06-01".toList,
         issuer := "ACME Corp".toList,
         percent_owned := some (7 : ℚ) } : NormalizedFiling).percent_owned =
        percentOwned raw.owners :=
  ⟨(percent_owned_max_of_owner_percents.1 [some (3 : ℚ), none, some (7 : ℚ)]).2 7
      (by decide),
   percent_owned_max_of_owner_percents.2
     [{ formType := "SC 13G".toList,
        filedAt := some "2025-06-01T12:00:00-04:00".toList,
        nameOfIssuer := "ACME Corp".toList,
        owners := [some (3 : ℚ), none, some (7 : ℚ)] }]
     ⟨2025, 1, 1⟩ 5
     { form := "SC 13G".toList, filed_at_date := "2025-06-01".toList,
       issuer := "ACME Corp".toList, percent_owned := some (7 : ℚ) }
     (by decide)⟩

/-! ### Report formatting (`format_daily_report`, 13G.py lines 206-253) -/

/-- The characters removed by Python `str.strip()` with no argument
(ASCII whitespace; the exotic Unicode space classes do not occur in the
pipeline's data). -/
def pyIsSpace (c : Char) : Bool :=
  c = ' ' || c = '\t' || c = '\n' || c = '\r' || c = '\x0b' || c = '\x0c'

/-- Python `s.strip()`. -/
def stripPy (s : List Char) : List Char :=
  ((s.dropWhile pyIsSpace).reverse.dropWhile pyIsSpace).reverse

/-- Lines 239-241 and the `{issuer:<35}` field of line 248: strip the issuer,
truncate to 32 characters plus `"..."` when longer than 35, then left-justify
to width 35. -/
def displayIssuer (issuer : List Char) : List Char :=
  let s := stripPy issuer
  let t := if 35 < s.length then s.take 32 ++ "...".toList else s
  t ++ List.replicate (35 - t.length) ' '

/-- Python `f"{x:.1f}"` modelled by exact rational rounding to one decimal
place (the binary-float rounding noise of the original is not modelled),
followed by `"%"` (line 246). -/
def formatPercent (q : ℚ) : List Char :=
  let t : Int := round (q * 10)
  let sgn : List Char := if t < 0 then ['-'] else []
  sgn ++ (toString (t.natAbs / 10)).toList ++ ['.'] ++
    (toString (t.natAbs % 10)).toList ++ ['%']

/-- Lines 243-246: the `% owned` column. -/
def pctStr : Option ℚ → List Char
  | none => "N/A".toList
  | some q => formatPercent q

/-- Line 248: one table row. -/
def formatRow (f : NormalizedFiling) : List Char :=
  f.filed_at_date ++ " | ".toList ++ displayIssuer f.issuer ++
    " | ".toList ++ pctStr f.percent_owned

/-- One value of the `all_funds_filings` dict (13G.py lines 273-276). -/
structure FundInfo where
  name : List Char
  filings : List NormalizedFiling
deriving DecidableEq

def MAX_FILINGS_PER_FUND : Nat := 5

def noFilingsLine : List Char := "No 13D/13G filings in the lookback window.".toList

def colHeaderLine : List Char :=
  "Date       | Issuer                               | % owned".toList

/-- The lines appended for one fund in the `for cik, info in ...` loop
(lines 222-251), including the trailing blank line. -/
def fundBlock (cik : List Char) (info : FundInfo) : List (List Char) :=
  [List.replicate 70 '=',
   info.name ++ " (CIK ".toList ++ cik ++ ")".toList,
   List.replicate 70 '-',
   colHeaderLine,
   List.replicate 70 '-'] ++
  (if info.filings = [] then [noFilingsLine, []]
   else info.filings.map formatRow ++ [[]])

/-- Lines 215-220: the report-level header (the generation timestamp is an
input, making the formatter a pure function of its arguments). -/
def reportHeaderLines (ts : List Char) : List (List Char) :=
  ["Daily 13D/13G Ownership Snapshot".toList,
   "Date (UTC): ".toList ++ ts,
   "Showing up to ".toList ++ (toString MAX_FILINGS_PER_FUND).toList ++
     " latest filings per fund".toList,
   []]

/-- The `lines` list accumulated by `format_daily_report`: the loop appends
exactly one `fundBlock` per dict entry, in order. -/
def reportLines (ts : List Char) (m : List (List Char × FundInfo)) :
    List (List Char) :=
  reportHeaderLines ts ++ (m.map (fun p => fundBlock p.1 p.2)).flatten

/-- `format_daily_report` returns `"\n".join(lines)`. -/
def format_daily_report (ts : List Char) (m : List (List Char × FundInfo)) :
    List Char :=
  List.intercalate ['\n'] (reportLines ts m)

/-- C8 (counterexample): an issuer of 36 characters whose last character is a
space is displayed padded, not truncated — the code strips whitespace before
measuring, so the claim as stated (in terms of the unstripped issuer name)
fails. -/
theorem issuer_display_strip_counterexample :
    35 < (List.replicate 35 'a' ++ [' ']).length ∧
    displayIssuer (List.replicate 35 'a' ++ [' ']) ≠
      (List.replicate 35 'a' ++ [' ']).take 32 ++ "...".toList := by
  decide

/-- C8 (amended): the display rule applies to the whitespace-stripped issuer:
longer than 35 characters it becomes its first 32 characters plus `"..."`,
otherwise it is padded with spaces to width 35; either way the displayed
field is exactly 35 characters wide. -/
theorem issuer_display_after_strip (issuer : List Char) :
    (35 < (stripPy issuer).length →
      displayIssuer issuer = (stripPy issuer).take 32 ++ "...".toList) ∧
    ((stripPy issuer).length ≤ 35 →
      displayIssuer issuer =
        stripPy issuer ++ List.replicate (35 - (stripPy issuer).length) ' ') ∧
    (displayIssuer issuer).length = 35 := by
  refine ⟨?_, ?_, ?_⟩
  · intro h
    have h32 : ((stripPy issuer).take 32 ++ "...".toList).length = 35 := by
      simp only [List.length_append, List.length_take]
      have : "...".toList.length = 3 := by decide
      omega
    simp only [displayIssuer, if_pos h, h32]
    simp only [Nat.sub_self, List.replicate_zero, List.append_nil]
  · intro h
    have hnot : ¬ 35 < (stripPy issuer).length := not_lt.mpr h
    simp only [displayIssuer, if_neg hnot]
  · by_cases h : 35 < (stripPy issuer).length
    · have h32 : ((stripPy issuer).take 32 ++ "...".toList).length = 35 := by
        simp only [List.length_append, List.length_take]
        have : "...".toList.length = 3 := by decide
        omega
      simp only [displayIssuer, if_pos h, h32]
      simp only [Nat.sub_self, List.replicate_zero, List.append_nil]
      exact h32
    · simp only [displayIssuer, if_neg h]
      simp only [List.length_append, List.length_replicate]
      omega

theorem issuer_display_after_strip_witness :
    displayIssuer "ACME Holdings Corporation International".toList =
      (stripPy "ACME Holdings Corporation International".toList).take 32 ++
        "...".toList ∧
    (displayIssuer "ACME Holdings Corporation International".toList).length = 35 :=
  ⟨(issuer_display_after_strip "ACME Holdings Corporation International".toList).1
      (by decide),
   (issuer_display_after_strip "ACME Holdings Corporation International".toList).2.2⟩

/-! ### Delivery pipeline (`fetch_13dg_filings_for_cik` guard + `main`,
13G.py lines 129-130 and 258-287)

The HTTP layer is a function `net` from a CIK to either the decoded
`filings` array or the message of the exception `requests` raised; `main`'s
`try/except` (lines 267-271) substitutes `[]` on any error. -/

def FUNDS : List (List Char × List Char) :=
  [("Point72 Asset Management".toList, "1603466".toList),
   ("Elliott".toList, "1791786".toList),
   ("Starboard Value".toList, "1517137".toList),
   ("Jane Street".toList, "1595888".toList),
   ("Renaissance".toList, "1037389".toList),
   ("Citadel".toList, "1423053".toList),
   ("Millennium".toList, "1273087".toList)]

def SEC_API_KEY_PLACEHOLDER : List Char := "YOUR_SEC_API_KEY_HERE".toList

def credErrorMsg : List Char :=
  "SEC_API_KEY is not set. Please set it as env var or in the script.".toList

/-- `fetch_13dg_filings_for_cik`: the credential guard of lines 129-130 runs
before the network is consulted; afterwards the decoded response is fed to
the extraction loop.  An `Except.error` models a raised exception. -/
def fetch_13dg_filings_for_cik (apiKey : List Char)
    (net : List Char → Except (List Char) (List RawFiling))
    (cik : List Char) (cutoff : Date) (maxFilings : Nat) :
    Except (List Char) (List NormalizedFiling) :=
  if apiKey = [] ∨ apiKey = SEC_API_KEY_PLACEHOLDER then
    Except.error credErrorMsg
  else
    match net cik with
    | Except.error e => Except.error e
    | Except.ok filings => Except.ok (extract filings cutoff maxFilings)

/-- Python dict assignment `d[k] = v`: replace the value if the key exists,
otherwise append (insertion order is preserved). -/
def dictInsert (m : List (List Char × FundInfo)) (k : List Char) (v : FundInfo) :
    List (List Char × FundInfo) :=
  if (m.lookup k).isSome then m.map (fun p => if p.1 = k then (k, v) else p)
  else m ++ [(k, v)]

/-- Lines 267-271: fetch one filer's filings, substituting `[]` on any
raised exception. -/
def fetchOrEmpty (apiKey : List Char)
    (net : List Char → Except (List Char) (List RawFiling))
    (cik : List Char) (cutoff : Date) : List NormalizedFiling :=
  match fetch_13dg_filings_for_cik apiKey net cik cutoff MAX_FILINGS_PER_FUND with
  | Except.error _ => []
  | Except.ok fs => fs

/-- The `all_funds_filings` dict built by `main`'s loop (lines 262-276). -/
def mainFilings (apiKey : List Char)
    (net : List Char → Except (List Char) (List RawFiling))
    (cutoff : Date) : List (List Char × FundInfo) :=
  FUNDS.foldl
    (fun m fund => dictInsert m fund.2 ⟨fund.1, fetchOrEmpty apiKey net fund.2 cutoff⟩)
    []

theorem lookup_eq_none_of_keys_ne {k : List Char} :
    ∀ (m : List (List Char × FundInfo)), (∀ p ∈ m, p.1 ≠ k) → m.lookup k = none := by
  intro m
  induction m with
  | nil => intro _; rfl
  | cons p ps ih =>
    intro h
    rcases p with ⟨k', v⟩
    cases hb : k == k' with
    | true =>
      exfalso
      exact h (k', v) (List.mem_cons_self _ _) (by simpa [eq_comm] using beq_iff_eq.mp hb)
    | false =>
      rw [List.lookup_cons, hb]
      exact ih (fun p hp => h p (List.mem_cons_of_mem _ hp))

theorem foldl_dictInsert_eq (g : List Char × List Char → FundInfo) :
    ∀ (funds : List (List Char × List Char)) (m : List (List Char × FundInfo)),
      (∀ f ∈ funds, ∀ p ∈ m, p.1 ≠ f.2) →
      (funds.map Prod.snd).Nodup →
      funds.foldl (fun acc f => dictInsert acc f.2 (g f)) m =
        m ++ funds.map (fun f => (f.2, g f)) := by
  intro funds
  induction funds with
  | nil => intro m _ _; simp
  | cons f fs ih =>
    intro m h hnd
    rw [List.foldl_cons]
    have hnone : m.lookup f.2 = none :=
      lookup_eq_none_of_keys_ne m (fun p hp => h f (List.mem_cons_self _ _) p hp)
    have hstep : dictInsert m f.2 (g f) = m ++ [(f.2, g f)] := by
      unfold dictInsert
      rw [hnone]
      rfl
    rw [hstep]
    have hnd2 : f.2 ∉ fs.map Prod.snd ∧ (fs.map Prod.snd).Nodup := by
      rw [List.map_cons] at hnd
      exact List.nodup_cons.mp hnd
    have hfresh : ∀ f' ∈ fs, ∀ p ∈ m ++ [(f.2, g f)], p.1 ≠ f'.2 := by
      intro f' hf' p hp
      rcases List.mem_append.mp hp with hp | hp
      · exact h f' (List.mem_cons_of_mem _ hf') p hp
      · rw [List.mem_singleton.mp hp]
        intro he
        have he2 : f.2 = f'.2 := he
        exact hnd2.1 (he2 ▸ List.mem_map_of_mem Prod.snd hf')
    rw [ih _ hfresh hnd2.2]
    simp

theorem mainFilings_eq (apiKey : List Char)
    (net : List Char → Except (List Char) (List RawFiling)) (cutoff : Date) :
    mainFilings apiKey net cutoff =
      FUNDS.map (fun f => (f.2, ⟨f.1, fetchOrEmpty apiKey net f.2 cutoff⟩)) := by
  unfold mainFilings
  exact foldl_dictInsert_eq _ FUNDS [] (by simp) (by decide)

theorem lookup_map_self (g : List Char × List Char → FundInfo) :
    ∀ (funds : List (List Char × List Char)) (name cik : List Char),
      (funds.map Prod.snd).Nodup → (name, cik) ∈ funds →
      (funds.map (fun f => (f.2, g f))).lookup cik = some (g (name, cik)) := by
  intro funds
  induction funds with
  | nil => intro name cik _ h; cases h
  | cons f fs ih =>
    intro name cik hnd hmem
    have hnd2 : f.2 ∉ fs.map Prod.snd ∧ (fs.map Prod.snd).Nodup := by
      rw [List.map_cons] at hnd
      exact List.nodup_cons.mp hnd
    rcases List.mem_cons.mp hmem with heq | hmem
    · rw [← heq]
      simp [List.lookup_cons]
    · have hne : cik ≠ f.2 := by
        intro he
        apply hnd2.1
        rw [← he]
        exact List.mem_map_of_mem Prod.snd hmem
      have hb : (cik == f.2) = false := by
        simpa using hne
      rw [List.map_cons, List.lookup_cons, hb]
      exact ih name cik hnd2.2 hmem

/-- C7: for every configured filer, whatever the network does, the pipeline's
dict has an entry for that filer; if the fetch raised an error the entry's
filing list is empty; the formatted report contains that filer's block; and a
block whose filing list is empty shows the "no filings" placeholder.  The
run is never aborted: `mainFilings` is total by construction of the
per-filer exception handler. -/
theorem per_filer_failure_isolated
    (apiKey : List Char) (net : List Char → Except (List Char) (List RawFiling))
    (cutoff : Date) (ts : List Char) (name cik : List Char)
    (hmem : (name, cik) ∈ FUNDS) :
    ∃ info : FundInfo,
      (mainFilings apiKey net cutoff).lookup cik = some info ∧
      info.name = name ∧
      (∀ e, fetch_13dg_filings_for_cik apiKey net cik cutoff MAX_FILINGS_PER_FUND =
          Except.error e → info.filings = []) ∧
      (∃ pre post, reportLines ts (mainFilings apiKey net cutoff) =
        pre ++ fundBlock cik info ++ post) ∧
      (info.filings = [] → noFilingsLine ∈ fundBlock cik info) := by
  refine ⟨⟨name, fetchOrEmpty apiKey net cik cutoff⟩, ?_, rfl, ?_, ?_, ?_⟩
  · rw [mainFilings_eq]
    exact lookup_map_self _ FUNDS name cik (by decide) hmem
  · intro e he
    show fetchOrEmpty apiKey net cik cutoff = []
    unfold fetchOrEmpty
    rw [he]
  · rw [mainFilings_eq]
    have hpair : ((cik : List Char),
        (⟨name, fetchOrEmpty apiKey net cik cutoff⟩ : FundInfo)) ∈
        FUNDS.map (fun f => (f.2, (⟨f.1, fetchOrEmpty apiKey net f.2 cutoff⟩ : FundInfo))) :=
      List.mem_map_of_mem _ hmem
    have hblock := List.mem_map_of_mem (fun p => fundBlock p.1 p.2) hpair
    obtain ⟨s, t, hst⟩ := List.infix_of_mem_flatten hblock
    refine ⟨reportHeaderLines ts ++ s, t, ?_⟩
    unfold reportLines
    rw [← hst]
    simp
  · intro h
    have h2 : fetchOrEmpty apiKey net cik cutoff = [] := h
    simp [fundBlock, h2]

/-- A network stub that fails for one configured CIK and returns an empty
filing array for every other. -/
def netOneFailure : List Char → Except (List Char) (List RawFiling) :=
  fun cik => if cik = "1791786".toList then Except.error "HTTPError".toList
             else Except.ok []

theorem per_filer_failure_isolated_witness :
    ∃ info : FundInfo,
      (mainFilings "key".toList netOneFailure ⟨2025, 1, 1⟩).lookup "1791786".toList =
        some info ∧
      info.name = "Elliott".toList ∧
      (∀ e, fetch_13dg_filings_for_cik "key".toList netOneFailure "1791786".toList
          ⟨2025, 1, 1⟩ MAX_FILINGS_PER_FUND = Except.error e → info.filings = []) ∧
      (∃ pre post, reportLines "2025-10-12 00:00:00".toList
          (mainFilings "key".toList netOneFailure ⟨2025, 1, 1⟩) =
        pre ++ fundBlock "1791786".toList info ++ post) ∧
      (info.filings = [] → noFilingsLine ∈ fundBlock "1791786".toList info) :=
  per_filer_failure_isolated "key".toList netOneFailure ⟨2025, 1, 1⟩
    "2025-10-12 00:00:00".toList "Elliott".toList "1791786".toList (by decide)

/-- A network stub that always answers successfully. -/
def netAllOk : List Char → Except (List Char) (List RawFiling) :=
  fun _ => Except.ok []

/-- C6 (counterexample): with the credential missing (empty key), the fetch
does raise the configuration error — but `main` catches it per filer and the
run completes, producing the full seven-fund dict (every filer with zero
filings) instead of aborting. -/
theorem missing_key_does_not_abort_counterexample :
    fetch_13dg_filings_for_cik [] netAllOk "1603466".toList ⟨2025, 1, 1⟩
        MAX_FILINGS_PER_FUND = Except.error credErrorMsg ∧
    mainFilings [] netAllOk ⟨2025, 1, 1⟩ =
      [("1603466".toList, ⟨"Point72 Asset Management".toList, []⟩),
       ("1791786".toList, ⟨"Elliott".toList, []⟩),
       ("1517137".toList, ⟨"Starboard Value".toList, []⟩),
       ("1595888".toList, ⟨"Jane Street".toList, []⟩),
       ("1037389".toList, ⟨"Renaissance".toList, []⟩),
       ("1423053".toList, ⟨"Citadel".toList, []⟩),
       ("1273087".toList, ⟨"Millennium".toList, []⟩)] := by
  constructor
  · rfl
  · rfl

/-- C6 (amended): a missing or placeholder credential makes the fetch fail
with the configuration error before the network is consulted (the result is
the same for every `net`), but the orchestrator's per-filer handler catches
it: the run continues and records an empty filing list for every configured
filer rather than aborting. -/
theorem missing_key_error_before_network_run_continues
    (apiKey : List Char) (net : List Char → Except (List Char) (List RawFiling))
    (cik : List Char) (cutoff : Date) (maxF : Nat)
    (hbad : apiKey = [] ∨ apiKey = SEC_API_KEY_PLACEHOLDER) :
    fetch_13dg_filings_for_cik apiKey net cik cutoff maxF = Except.error credErrorMsg ∧
    (mainFilings apiKey net cutoff).length = FUNDS.length ∧
    ∀ p ∈ mainFilings apiKey net cutoff, p.2.filings = [] := by
  have hfetch : ∀ (cik' : List Char) (maxF' : Nat),
      fetch_13dg_filings_for_cik apiKey net cik' cutoff maxF' =
        Except.error credErrorMsg := by
    intro cik' maxF'
    unfold fetch_13dg_filings_for_cik
    rw [if_pos hbad]
  refine ⟨hfetch cik maxF, ?_, ?_⟩
  · rw [mainFilings_eq]
    simp
  · rw [mainFilings_eq]
    intro p hp
    obtain ⟨f, hf, rfl⟩ := List.mem_map.mp hp
    show fetchOrEmpty apiKey net f.2 cutoff = []
    unfold fetchOrEmpty
    rw [hfetch f.2 MAX_FILINGS_PER_FUND]

theorem missing_key_error_before_network_run_continues_witness :
    fetch_13dg_filings_for_cik [] netAllOk "1603466".toList ⟨2025, 1, 1⟩ 5 =
      Except.error credErrorMsg ∧
    (mainFilings [] netAllOk ⟨2025, 1, 1⟩).length = FUNDS.length ∧
    ∀ p ∈ mainFilings [] netAllOk ⟨2025, 1, 1⟩, p.2.filings = [] :=
  missing_key_error_before_network_run_continues [] netAllOk
    "1603466".toList ⟨2025, 1, 1⟩ 5 (Or.inl rfl)
